import Mathlib

/-!
Verification of the sparse second-order automatic-differentiation kernel
(`agd/AutomaticDifferentiation/Sparse2.py`, class `spAD2`).

The shallow embedding works at two levels of granularity, matching how the
claims quantify:

* `spAD2s` is one AD scalar (outer shape `()`): a value together with the
  trailing sparse axes of the numpy fields `coef1, index, coef2, index_row,
  index_col`, each a Lean list.  All elementwise operators of `spAD2` act
  independently on each scalar of the batch, so this is the faithful image
  of the Python code for scalar (0-d) arrays, with `np.concatenate` on the
  last axis becoming `++`, `np.repeat`/`np.tile` becoming `repeatL`/`tileL`,
  and scalar broadcasting becoming `List.map`.

* `spArr` is a one-dimensional batched array (outer shape `(n,)`) with the
  six fields kept as rectangular matrices; it is used for the indexed
  assignment `__setitem__`, whose behaviour (in-place widening, partial
  mutation before a raised error) is inherently about the array container.

Numbers are modelled as `ℚ` (the doubles in the scenarios of the spec are
exactly representable), indices as `ℕ`.  A numpy call that raises becomes
`Option`/`Except`; for `__setitem__` the error case carries the state of the
object at the moment the exception escapes, because the Python method
mutates `self` field by field.
-/

namespace AGD

/-- `np.repeat(xs, k)` along the last axis: every entry repeated `k` times
in place (`[x0,…,x0,x1,…,x1,…]`). -/
def repeatL {α : Type} (xs : List α) (k : ℕ) : List α :=
  xs.flatMap (fun a => List.replicate k a)

/-- `np.tile(xs, k)`: the whole list repeated `k` times (`[x0,…,xm,x0,…,xm,…]`). -/
def tileL {α : Type} (xs : List α) (k : ℕ) : List α :=
  (List.replicate k xs).flatten

/-- One scalar element of a `spAD2` array: the value plus the trailing
sparse-width axis of each of the five derivative fields of the Python class
(`coef1, index` of width `size_ad1`; `coef2, index_row, index_col` of width
`size_ad2`). -/
structure spAD2s where
  value : ℚ
  coef1 : List ℚ
  index : List ℕ
  coef2 : List ℚ
  index_row : List ℕ
  index_col : List ℕ
deriving DecidableEq, Repr

namespace spAD2s

/-- Well-formedness: in numpy the coefficient and index fields of each order
are arrays of identical shape (asserted in `spAD2.__new__`). -/
def WF (x : spAD2s) : Prop :=
  x.coef1.length = x.index.length ∧
  x.coef2.length = x.index_row.length ∧ x.coef2.length = x.index_col.length

instance : DecidablePred WF := fun x => by unfold WF; infer_instance

/-- `spAD2.__mul__` on two AD scalars (`Sparse2.py` lines 75-92): value is the
product; each operand's first/second-order coefficients are scaled by the
other operand's value; the cross second-order block is the outer product
`repeat(self.coef1) * tile(other.coef1)`, emitted twice, once with
`(index2_a, index2_b)` and once with `(index2_b, index2_a)` as
`(row, col)` indices. -/
def mul (x y : spAD2s) : spAD2s :=
  let len_a := x.coef1.length
  let len_b := y.coef1.length
  let coef2_ab := List.zipWith (· * ·) (repeatL x.coef1 len_b) (tileL y.coef1 len_a)
  let index2_a := repeatL x.index len_b
  let index2_b := tileL y.index len_a
  { value := x.value * y.value
    coef1 := x.coef1.map (fun c => y.value * c) ++ y.coef1.map (fun c => x.value * c)
    index := x.index ++ y.index
    coef2 := (x.coef2.map (fun c => y.value * c) ++ y.coef2.map (fun c => x.value * c))
      ++ coef2_ab ++ coef2_ab
    index_row := (x.index_row ++ y.index_row) ++ index2_a ++ index2_b
    index_col := (x.index_col ++ y.index_col) ++ index2_b ++ index2_a }

/-- `spAD2._math_helper` (`Sparse2.py` lines 124-131): given the analytic
triple `(a, b, c) = (f(x), f'(x), f''(x))`, the chain rule to second order:
first-order coefficients scaled by `b`; second order is `b·coef2`
concatenated with `c · (repeat(coef1) * tile(coef1))` at the index pairs
`(repeat(index), tile(index))`. -/
def math_helper (x : spAD2s) (d : ℚ × ℚ × ℚ) : spAD2s :=
  let a := d.1
  let b := d.2.1
  let c := d.2.2
  let len_1 := x.coef1.length
  { value := a
    coef1 := x.coef1.map (fun t => b * t)
    index := x.index
    coef2 := x.coef2.map (fun t => b * t)
      ++ (List.zipWith (· * ·) (repeatL x.coef1 len_1) (tileL x.coef1 len_1)).map
           (fun t => c * t)
    index_row := x.index_row ++ repeatL x.index len_1
    index_col := x.index_col ++ tileL x.index len_1 }

/-- Modelled from the spec: the analytic triple `(f(x), f'(x), f''(x))` for
`f = sqrt`, supplied in the source through `misc.pow2(self.value, 0.5)`
(file `misc.py` is not part of the sources at hand).  Per the spec's §4.1,
each unary math function supplies `(a, b, c) = (√x, 1/(2√x), -1/(4·x·√x))`;
`Rat.sqrt` is exact on the perfect squares used by the scenarios. -/
def sqrt2 (x : ℚ) : ℚ × ℚ × ℚ :=
  (Rat.sqrt x, 1 / (2 * Rat.sqrt x), -(1 / (4 * (x * Rat.sqrt x))))

/-- `spAD2.sqrt` (`Sparse2.py` line 133, via `__pow__` and the analytic
triple): chain rule through `math_helper`. -/
def sqrtS (x : spAD2s) : spAD2s :=
  math_helper x (sqrt2 x.value)

/-- Modelled from the spec: `Sparse.identity` (file `Sparse.py` is not part
of the sources at hand) produces "unit first-order terms (coefficient 1 at
the given index), empty second-order terms" (§4.1); `Sparse2.identity`
(lines 416-419) then attaches second-order fields of trailing width 0. -/
def identityS (v : ℚ) (i : ℕ) : spAD2s :=
  { value := v, coef1 := [1], index := [i],
    coef2 := [], index_row := [], index_col := [] }

/-- Sum of the coefficients that sit at a given sparse index: the value the
scatter-accumulation of `to_dense` deposits in one dense cell, and the
semantic content one element's term list assigns to one global variable. -/
def sumAt : List ℚ → List ℕ → ℕ → ℚ
  | c :: cs, i :: is, j => (if i = j then c else 0) + sumAt cs is j
  | _, _, _ => 0

/-- Second-order analogue of `sumAt` on a zipped triplet list
`(coefficient, (row, col))`. -/
def sumAtP : List (ℚ × ℕ × ℕ) → ℕ → ℕ → ℚ
  | q :: t, i, j => (if q.2.1 = i ∧ q.2.2 = j then q.1 else 0) + sumAtP t i j
  | [], _, _ => 0

/-- Second-order cell sum over the three parallel lists. -/
def sumAt2 (cs : List ℚ) (rs ls : List ℕ) (i j : ℕ) : ℚ :=
  sumAtP (cs.zip (rs.zip ls)) i j

/-- `foldr max 0`: the largest entry of a list of indices (0 when empty). -/
def maxN (l : List ℕ) : ℕ := l.foldr max 0

/-- Modelled from the spec: the first-order compaction
`Sparse.spAD.simplify_ad` (file `Sparse.py` is not part of the sources at
hand), to which `spAD2.simplify_ad` delegates both its orders.  Per §4.3 it
"merges first-order entries sharing a global index into one entry with
summed coefficient; drops zero-coefficient entries"; the order of the
surviving entries is not specified, so the model emits them sorted by
index: the keys are the indices with a nonzero summed coefficient. -/
def simpKeys (cs : List ℚ) (is : List ℕ) : List ℕ :=
  (List.range (1 + maxN is)).filter (fun j => sumAt cs is j ≠ 0)

/-- The compacted pair: surviving keys with their summed coefficients. -/
def simplify1 (cs : List ℚ) (is : List ℕ) : List ℚ × List ℕ :=
  ((simpKeys cs is).map (sumAt cs is), simpKeys cs is)

/-- `spAD2.simplify_ad` (`Sparse2.py` lines 395-403): first order is
compacted directly; second order is re-encoded with the combined key
`index_row * n_col + index_col` where `n_col = 1 + np.max(index_col)`,
compacted with the same routine, and decoded by `key / n_col`,
`key % n_col`.  `np.max` of the empty `index_col` array raises, hence
`none` when the second-order width is 0. -/
def simplify_ad (x : spAD2s) : Option spAD2s :=
  if x.index_col = [] then none
  else
    let p1 := simplify1 x.coef1 x.index
    let n_col := 1 + maxN x.index_col
    let keys := List.zipWith (fun r c => r * n_col + c) x.index_row x.index_col
    let p2 := simplify1 x.coef2 keys
    some { value := x.value
           coef1 := p1.1, index := p1.2
           coef2 := p2.1
           index_row := p2.2.map (fun k => k / n_col)
           index_col := p2.2.map (fun k => k % n_col) }

/-- `np.max(l, initial=-1)`: the largest entry, or `-1` on an empty list,
as used by `spAD2.bound_ad`. -/
def maxI (l : List ℕ) : ℤ := l.foldr (fun a m => max (a : ℤ) m) (-1)

/-- `spAD2.bound_ad` (`Sparse2.py` lines 323-324): one more than the largest
entry of `index`, `index_row`, `index_col`, each maximum taken with
`initial=-1` so that empty arrays contribute `-1`. -/
def bound_ad (x : spAD2s) : ℕ :=
  (1 + max (maxI x.index) (max (maxI x.index_row) (maxI x.index_col))).toNat

/-- `spAD2.to_dense` (`Sparse2.py` lines 325-334) at one scalar: the
first-order pairs are scatter-added into a length-`b` vector
(`np.put_along_axis` indexed by `index`, accumulating with
`np.take_along_axis`), the second-order triples into a flat length-`b·b`
array indexed by the combined key `index_row * b + index_col`, reshaped to
`b × b`.  `np.put_along_axis`/`np.take_along_axis` raise on an out-of-range
index, so the call produces a result exactly when every first-order index
is `< b` and every combined key is `< b·b`; a cell receives the sum of all
contributions whose (combined) key names it. -/
def to_dense (x : spAD2s) (b : ℕ) : Option (List ℚ × List (List ℚ)) :=
  let keys := List.zipWith (fun r c => r * b + c) x.index_row x.index_col
  if (∀ i ∈ x.index, i < b) ∧ (∀ k ∈ keys, k < b * b) then
    some ((List.range b).map (sumAt x.coef1 x.index),
      (List.range b).map (fun i => (List.range b).map (fun j => sumAt x.coef2 keys (i * b + j))))
  else none

/-- `spAD2.to_dense` with the `dense_size_ad=None` default: the bound is
`self.bound_ad()`. -/
def to_denseD (x : spAD2s) : Option (List ℚ × List (List ℚ)) :=
  to_dense x (bound_ad x)

/-- Modelled from the spec: `spAD2.to_first` returns the first-order
`Sparse.spAD` view and `Sparse.spAD.to_dense` (file `Sparse.py` is not part
of the sources at hand) scatter-accumulates its `(coef, index)` pairs into a
dense length-`b` gradient, per §4.4's ToDense. -/
def gradDense (x : spAD2s) (b : ℕ) : Option (List ℚ) :=
  if ∀ i ∈ x.index, i < b then
    some ((List.range b).map (sumAt x.coef1 x.index))
  else none

/-- `spAD2.triplets` (`Sparse2.py` lines 339-340): the raw coordinate
Hessian `(coef2, (index_row, index_col))`. -/
def triplets (x : spAD2s) : List ℚ × List ℕ × List ℕ :=
  (x.coef2, x.index_row, x.index_col)

/-- `spAD2.solve_stationnary(raw=True)` (`Sparse2.py` lines 342-349): the
triplet Hessian together with `rhs = -to_first().to_dense(bound_ad()).coef`,
the negated dense gradient over the index bound. -/
def solve_stationnary_raw (x : spAD2s) :
    Option ((List ℚ × List ℕ × List ℕ) × List ℚ) :=
  (gradDense x (bound_ad x)).map (fun g => (triplets x, g.map (fun t => -t)))

/-- Modelled from the spec: `misc.spsolve` (file `misc.py` is not part of
the sources at hand) hands the triplet system to the external sparse linear
solver of §6, whose internal method is explicitly out of scope and is
therefore a parameter here; per §4.5 the call fails when the implied matrix
dimensions cannot be inferred, i.e. on an empty triplet list. -/
def spsolve (solver : (List ℚ × List ℕ × List ℕ) → List ℚ → List ℚ)
    (mat : List ℚ × List ℕ × List ℕ) (rhs : List ℚ) : Option (List ℚ) :=
  if mat.2.1 = [] then none else some (solver mat rhs)

/-- `spAD2.solve_stationnary` with `raw=False`: the raw system handed to
`misc.spsolve`. -/
def solve_stationnary (solver : (List ℚ × List ℕ × List ℕ) → List ℚ → List ℚ)
    (x : spAD2s) : Option (List ℚ) :=
  (solve_stationnary_raw x).bind (fun p => spsolve solver p.1 p.2)

/-- `spAD2.solve_weakform(raw=True)` (`Sparse2.py` lines 351-363): take the
raw stationarity system `(coef,(row,col)), rhs`; with `n = rhs.size // 2`,
keep the triplet entries with `row >= n` and `col < n` (the boolean mask
`pos`), shift their rows down by `n`, and keep the tail `rhs[n:]` of the
right-hand side. -/
def solve_weakform_raw (x : spAD2s) :
    Option ((List ℚ × List ℕ × List ℕ) × List ℚ) :=
  (solve_stationnary_raw x).map (fun p =>
    let rhs := p.2
    let n := rhs.length / 2
    let kept := (p.1.1.zip (p.1.2.1.zip p.1.2.2)).filter
      (fun q => decide (n ≤ q.2.1) && decide (q.2.2 < n))
    ((kept.map (fun q => q.1), kept.map (fun q => q.2.1 - n), kept.map (fun q => q.2.2)),
      rhs.drop n))

/-- Stated from the claim's words, for comparison with the code: restrict
the full system to "the off-diagonal sub-block coupling v-rows to
u-columns" — with the claim's labels (block v is the indices `< n`), the
entries with `row < n` and `col >= n` (columns shifted down by `n`) — "and
the corresponding sub-vector of r", the v rows `rhs[:n]`. -/
def weakform_claimed (x : spAD2s) :
    Option ((List ℚ × List ℕ × List ℕ) × List ℚ) :=
  (solve_stationnary_raw x).map (fun p =>
    let rhs := p.2
    let n := rhs.length / 2
    let kept := (p.1.1.zip (p.1.2.1.zip p.1.2.2)).filter
      (fun q => decide (q.2.1 < n) && decide (n ≤ q.2.2))
    ((kept.map (fun q => q.1), kept.map (fun q => q.2.1), kept.map (fun q => q.2.2 - n)),
      rhs.take n))

end spAD2s

/-- A rectangular 2-d numpy array of shape `(rows.length, w)`: one
derivative field of a 1-d `spAD2` batch, trailing axis the sparse width. -/
structure Mat (α : Type) where
  w : ℕ
  rows : List (List α)
deriving DecidableEq, Repr

/-- Write one row in place: numpy `arr[i, :] = r` (for the well-formed
targets of the theorems `i` is always in range; `List.set` is a no-op
beyond the end). -/
def setRow {α : Type} (m : Mat α) (i : ℕ) (r : List α) : Mat α :=
  ⟨m.w, m.rows.set i r⟩

/-- A 1-d `spAD2` array of outer shape `(value.length,)`: the six numpy
fields of the Python class as rectangular arrays. -/
structure spArr where
  value : List ℚ
  coef1 : Mat ℚ
  index : Mat ℕ
  coef2 : Mat ℚ
  index_row : Mat ℕ
  index_col : Mat ℕ
deriving DecidableEq, Repr

namespace spArr

/-- Well-formed scalar-shaped right-hand side: one element, one row per
field, and the coefficient/index widths of each order in agreement. -/
def WFs (o : spArr) : Prop :=
  o.value.length = 1 ∧ o.coef1.rows.length = 1 ∧ o.index.rows.length = 1 ∧
  o.coef2.rows.length = 1 ∧ o.index_row.rows.length = 1 ∧ o.index_col.rows.length = 1 ∧
  o.index.w = o.coef1.w ∧ o.index_row.w = o.coef2.w ∧ o.index_col.w = o.coef2.w

instance : DecidablePred WFs := fun o => by unfold WFs; infer_instance

/-- `spAD2.__setitem__(key, other)` for an integer key `i` and an `spAD2`
right-hand side of outer shape `(m,)` (`Sparse2.py` lines 188-207),
executed in the Python statement order; `Except.error` carries the state of
the target at the moment the numpy exception escapes, since the method
mutates `self` field by field:
1. `self.value[key] = other.value`: an out-of-range `i`, or a right-hand
   side that cannot broadcast into the scalar slot (`m ≠ 1`), raises before
   any mutation;
2. first order: `pad_size = max` of the two widths; if the target is
   narrower, `coef1` and `index` are widened in place with zero entries
   (`misc._pad_last`, modelled from the spec's §3 zero-padding: `np.pad`
   raises on a negative pad, i.e. on a right-hand-side field wider than
   `pad_size`); then `coef1[i, :]` and `index[i, :]` are assigned the
   padded right-hand-side rows — the `index` write can only raise when
   `other`'s coefficient and index widths disagree, after `value` and
   `coef1` were already written;
3. second order: the same, with its own independent `pad_size`. -/
def setitem (t : spArr) (i : ℕ) (o : spArr) : Except spArr spArr :=
  if i < t.value.length then
    match o.value with
    | [v] =>
      let t1 : spArr := { t with value := t.value.set i v }
      let p1 := max t1.coef1.w o.coef1.w
      let t2 : spArr :=
        if t1.coef1.w < p1 then
          { t1 with
            coef1 := ⟨p1, t1.coef1.rows.map
              (fun r => r ++ List.replicate (p1 - t1.coef1.w) 0)⟩
            index := ⟨p1, t1.index.rows.map
              (fun r => r ++ List.replicate (p1 - t1.index.w) 0)⟩ }
        else t1
      match o.coef1.rows with
      | [rc1] =>
        let t3 : spArr := { t2 with
          coef1 := setRow t2.coef1 i (rc1 ++ List.replicate (p1 - o.coef1.w) 0) }
        if o.index.w ≤ p1 then
          match o.index.rows with
          | [ri1] =>
            let t4 : spArr := { t3 with
              index := setRow t3.index i (ri1 ++ List.replicate (p1 - o.index.w) 0) }
            let p2 := max t4.coef2.w o.coef2.w
            let t5 : spArr :=
              if t4.coef2.w < p2 then
                { t4 with
                  coef2 := ⟨p2, t4.coef2.rows.map
                    (fun r => r ++ List.replicate (p2 - t4.coef2.w) 0)⟩
                  index_row := ⟨p2, t4.index_row.rows.map
                    (fun r => r ++ List.replicate (p2 - t4.index_row.w) 0)⟩
                  index_col := ⟨p2, t4.index_col.rows.map
                    (fun r => r ++ List.replicate (p2 - t4.index_col.w) 0)⟩ }
              else t4
            match o.coef2.rows with
            | [rc2] =>
              let t6 : spArr := { t5 with
                coef2 := setRow t5.coef2 i (rc2 ++ List.replicate (p2 - o.coef2.w) 0) }
              if o.index_row.w ≤ p2 then
                match o.index_row.rows with
                | [rr2] =>
                  let t7 : spArr := { t6 with
                    index_row := setRow t6.index_row i
                      (rr2 ++ List.replicate (p2 - o.index_row.w) 0) }
                  if o.index_col.w ≤ p2 then
                    match o.index_col.rows with
                    | [rl2] =>
                      Except.ok { t7 with
                        index_col := setRow t7.index_col i
                          (rl2 ++ List.replicate (p2 - o.index_col.w) 0) }
                    | _ => Except.error t7
                  else Except.error t7
                | _ => Except.error t6
              else Except.error t6
            | _ => Except.error t5
          | _ => Except.error t3
        else Except.error t3
      | _ => Except.error t2
    | _ => Except.error t
  else Except.error t

end spArr

namespace spAD2s

/-- `tileL` of a successor count splits off one copy. -/
theorem tileL_succ {α : Type} (xs : List α) (k : ℕ) :
    tileL xs (k + 1) = xs ++ tileL xs k := by
  simp [tileL, List.replicate_succ]

/-- `repeatL` of a cons splits off one replicate block. -/
theorem repeatL_cons {α : Type} (a : α) (xs : List α) (k : ℕ) :
    repeatL (a :: xs) k = List.replicate k a ++ repeatL xs k := by
  simp [repeatL]

theorem length_repeatL {α : Type} (xs : List α) (k : ℕ) :
    (repeatL xs k).length = xs.length * k := by
  induction xs with
  | nil => simp [repeatL]
  | cons a xs ih => simp [repeatL_cons, ih, Nat.succ_mul, Nat.add_comm]

/-- One replicate block zipped against an equally long list tags every entry
with the replicated element. -/
theorem zip_replicate_left {α β : Type} (a : α) :
    ∀ (bs : List β), (List.replicate bs.length a).zip bs = bs.map (fun b => (a, b))
  | [] => rfl
  | b :: bs => by
    simp [List.replicate_succ, zip_replicate_left a bs]

/-- Head block of the outer-product expansion: scaling one replicated
coefficient against a list and pairing with the replicated index. -/
theorem cross_head (c a : ℚ) (i : ℕ) :
    ∀ (ds : List ℚ) (js : List ℕ), ds.length = js.length →
      ((List.zipWith (· * ·) (List.replicate ds.length a) ds).map (fun t => c * t)).zip
          ((List.replicate ds.length i).zip js)
        = (ds.zip js).map (fun q => (c * (a * q.1), i, q.2))
  | [], [], _ => rfl
  | d :: ds, j :: js, h => by
    simp only [List.length_cons, List.replicate_succ, List.zipWith_cons_cons,
      List.map_cons, List.zip_cons_cons]
    exact congrArg _ (cross_head c a i ds js (by simpa using h))

/-- The `repeat`/`tile` outer product of `_math_helper` and `__mul__`, zipped
with its `(row, col)` index pairs, is exactly the list of all ordered pairs
drawn from the two zipped first-order term lists. -/
theorem cross_zip (c : ℚ) :
    ∀ (cs : List ℚ) (is : List ℕ) (ds : List ℚ) (js : List ℕ),
      cs.length = is.length → ds.length = js.length →
      ((List.zipWith (· * ·) (repeatL cs ds.length) (tileL ds cs.length)).map
            (fun t => c * t)).zip
          ((repeatL is ds.length).zip (tileL js cs.length))
        = (cs.zip is).flatMap (fun p => (ds.zip js).map (fun q => (c * (p.1 * q.1), p.2, q.2)))
  | [], [], ds, js, _, _ => by simp [repeatL, tileL]
  | a :: cs, i :: is, ds, js, h1, h2 => by
    have h1' : cs.length = is.length := by simpa using h1
    have hz1 : (List.zipWith (· * ·) (List.replicate ds.length a) ds).length = ds.length := by
      simp
    simp only [repeatL_cons, List.length_cons, tileL_succ]
    rw [List.zipWith_append _ _ _ _ _ (by simp)]
    rw [List.map_append]
    rw [List.zip_append (by simp [length_repeatL, h2])]
    rw [List.zip_append (by simp [hz1, h2])]
    rw [cross_head c a i ds js h2, cross_zip c cs is ds js h1' h2]
    simp

theorem le_maxN {l : List ℕ} {a : ℕ} (h : a ∈ l) : a ≤ maxN l := by
  induction l with
  | nil => cases h
  | cons b t ih =>
    rcases List.mem_cons.mp h with rfl | h'
    · exact le_max_left _ _
    · exact le_trans (ih h') (le_max_right _ _)

theorem neg_one_le_maxI (l : List ℕ) : -1 ≤ maxI l := by
  induction l with
  | nil => exact le_refl _
  | cons b t ih => exact le_trans ih (le_max_right _ _)

theorem le_maxI {l : List ℕ} {a : ℕ} (h : a ∈ l) : (a : ℤ) ≤ maxI l := by
  induction l with
  | nil => cases h
  | cons b t ih =>
    rcases List.mem_cons.mp h with rfl | h'
    · exact le_max_left _ _
    · exact le_trans (ih h') (le_max_right _ _)

theorem maxI_append (l₁ l₂ : List ℕ) : maxI (l₁ ++ l₂) = max (maxI l₁) (maxI l₂) := by
  induction l₁ with
  | nil =>
    rw [List.nil_append]
    exact (max_eq_right (neg_one_le_maxI l₂)).symm
  | cons b t ih =>
    show max (b : ℤ) (maxI (t ++ l₂)) = max (max (b : ℤ) (maxI t)) (maxI l₂)
    rw [ih, max_assoc]

theorem maxI_eq_maxN {l : List ℕ} (h : l ≠ []) : maxI l = (maxN l : ℤ) := by
  induction l with
  | nil => cases h rfl
  | cons b t ih =>
    match t with
    | [] =>
      show max (b : ℤ) (-1) = ((max b 0 : ℕ) : ℤ)
      rw [max_eq_left (by omega), Nat.max_zero]
    | c :: t' =>
      show max (b : ℤ) (maxI (c :: t')) = ((max b (maxN (c :: t')) : ℕ) : ℤ)
      rw [ih (by simp), Nat.cast_max]

theorem mem_lt_bound_ad {x : spAD2s} {a : ℕ}
    (h : a ∈ x.index ∨ a ∈ x.index_row ∨ a ∈ x.index_col) : a < bound_ad x := by
  have ha : (a : ℤ) ≤ max (maxI x.index) (max (maxI x.index_row) (maxI x.index_col)) := by
    rcases h with h | h | h
    · exact le_trans (le_maxI h) (le_max_left _ _)
    · exact le_trans (le_maxI h) (le_trans (le_max_left _ _) (le_max_right _ _))
    · exact le_trans (le_maxI h) (le_trans (le_max_right _ _) (le_max_right _ _))
  unfold bound_ad
  omega

theorem bound_ad_eq {x : spAD2s} (h : x.index ++ x.index_row ++ x.index_col ≠ []) :
    bound_ad x = maxN (x.index ++ x.index_row ++ x.index_col) + 1 := by
  have hI : max (maxI x.index) (max (maxI x.index_row) (maxI x.index_col)) =
      (maxN (x.index ++ x.index_row ++ x.index_col) : ℤ) := by
    rw [← maxI_eq_maxN h, maxI_append, maxI_append, max_assoc]
  unfold bound_ad
  rw [hI]
  omega

/-- On the combined key `row * b + col`, the cell sum at `i * b + j`
(`j < b`) is the cell sum of the `(row, col)` pairs at `(i, j)`, provided
all columns are `< b`: the key encoding is faithful. -/
theorem sumAt_cons (c : ℚ) (cs : List ℚ) (i : ℕ) (is : List ℕ) (j : ℕ) :
    sumAt (c :: cs) (i :: is) j = (if i = j then c else 0) + sumAt cs is j := rfl

theorem sumAtP_cons (q : ℚ × ℕ × ℕ) (t : List (ℚ × ℕ × ℕ)) (i j : ℕ) :
    sumAtP (q :: t) i j = (if q.2.1 = i ∧ q.2.2 = j then q.1 else 0) + sumAtP t i j := rfl

theorem sumAt_key (b : ℕ) :
    ∀ (cs : List ℚ) (rs ls : List ℕ), (∀ l ∈ ls, l < b) → ∀ i j, j < b →
      sumAt cs (List.zipWith (fun r c => r * b + c) rs ls) (i * b + j) = sumAt2 cs rs ls i j
  | [], rs, ls, _, i, j, _ => by cases List.zipWith (fun r c => r * b + c) rs ls <;>
      simp [sumAt, sumAt2, sumAtP]
  | c :: cs, [], ls, _, i, j, _ => by simp [sumAt, sumAt2, sumAtP]
  | c :: cs, r :: rs, [], _, i, j, _ => by simp [sumAt, sumAt2, sumAtP]
  | c :: cs, r :: rs, l :: ls, hl, i, j, hj => by
    have hrec := sumAt_key b cs rs ls (fun t ht => hl t (List.mem_cons_of_mem _ ht)) i j hj
    simp only [sumAt2] at hrec
    simp only [sumAt2, List.zip_cons_cons, List.zipWith_cons_cons, sumAt_cons, sumAtP_cons]
    rw [hrec]
    congr 1
    apply if_congr ?_ rfl rfl
    have hlb : l < b := hl l (List.mem_cons_self _ _)
    constructor
    · intro he
      have hb : 0 < b := by omega
      have hdr : (r * b + l) / b = r := by
        rw [Nat.mul_comm r b, Nat.mul_add_div hb, Nat.div_eq_of_lt hlb, Nat.add_zero]
      have hdi : (i * b + j) / b = i := by
        rw [Nat.mul_comm i b, Nat.mul_add_div hb, Nat.div_eq_of_lt hj, Nat.add_zero]
      have hri : r = i := by rw [← hdr, he, hdi]
      subst hri
      exact ⟨rfl, Nat.add_left_cancel he⟩
    · rintro ⟨rfl, rfl⟩
      rfl

/-- In-range rows and columns give in-range combined keys. -/
theorem key_lt (b : ℕ) :
    ∀ (rs ls : List ℕ), (∀ r ∈ rs, r < b) → (∀ l ∈ ls, l < b) →
      ∀ k ∈ List.zipWith (fun r c => r * b + c) rs ls, k < b * b
  | [], _, _, _ => by simp
  | _ :: _, [], _, _ => by simp
  | r :: rs, l :: ls, hr, hl => by
    intro k hk
    rcases List.mem_cons.mp hk with rfl | hk'
    · have h1 : r < b := hr r (List.mem_cons_self _ _)
      have h2 : l < b := hl l (List.mem_cons_self _ _)
      calc r * b + l < r * b + b := by omega
        _ = (r + 1) * b := by ring
        _ ≤ b * b := Nat.mul_le_mul_right _ (by omega)
    · exact key_lt b rs ls (fun t ht => hr t (List.mem_cons_of_mem _ ht))
        (fun t ht => hl t (List.mem_cons_of_mem _ ht)) k hk'

/-- Zipping three maps over one list is one map producing triples. -/
theorem zip_map_three {α β γ δ : Type} (f : α → β) (g : α → γ) (h : α → δ) :
    ∀ t : List α, (t.map f).zip ((t.map g).zip (t.map h)) = t.map (fun q => (f q, g q, h q))
  | [] => rfl
  | q :: t => by
    simp only [List.map_cons, List.zip_cons_cons]
    exact congrArg _ (zip_map_three f g h t)

/-- The weak-form mask (`row >= n`, `col < n`, rows shifted by `n`)
preserves cell sums: cell `(i, j)` of the reduced system (`j < n`) is cell
`(n + i, j)` of the full system. -/
theorem sumAtP_filter_shift (n i j : ℕ) (hj : j < n) :
    ∀ t : List (ℚ × ℕ × ℕ),
      sumAtP ((t.filter (fun q => decide (n ≤ q.2.1) && decide (q.2.2 < n))).map
          (fun q => (q.1, q.2.1 - n, q.2.2))) i j
        = sumAtP t (n + i) j
  | [] => rfl
  | q :: t => by
    have hrec := sumAtP_filter_shift n i j hj t
    by_cases hq : n ≤ q.2.1 ∧ q.2.2 < n
    · rw [List.filter_cons_of_pos (by simpa using hq), List.map_cons]
      show (if q.2.1 - n = i ∧ q.2.2 = j then q.1 else 0) + _ =
        (if q.2.1 = n + i ∧ q.2.2 = j then q.1 else 0) + _
      rw [hrec]
      congr 1
      apply if_congr ?_ rfl rfl
      omega
    · rw [List.filter_cons_of_neg (by simpa using hq)]
      show _ = (if q.2.1 = n + i ∧ q.2.2 = j then q.1 else 0) + _
      rw [hrec, if_neg (by omega), zero_add]

/-- The raw stationarity system always assembles: the triplet Hessian is the
second-order data verbatim and the right-hand side is the negated dense
gradient over `bound_ad`. -/
theorem stationnary_raw_eq (x : spAD2s) :
    solve_stationnary_raw x =
      some ((x.coef2, x.index_row, x.index_col),
        (List.range (bound_ad x)).map (fun j => -sumAt x.coef1 x.index j)) := by
  unfold solve_stationnary_raw gradDense
  rw [if_pos (fun i hi => mem_lt_bound_ad (Or.inl hi))]
  simp [triplets, List.map_map, Function.comp]

theorem sumAt_eq_zero_of_not_mem :
    ∀ (cs : List ℚ) (is : List ℕ) {j : ℕ}, j ∉ is → sumAt cs is j = 0
  | [], _, _, _ => by cases ‹List ℕ› <;> rfl
  | _ :: _, [], _, _ => rfl
  | c :: cs, i :: is, j, h => by
    rw [sumAt_cons, if_neg (fun he => h (by rw [← he]; exact List.mem_cons_self _ _)),
      sumAt_eq_zero_of_not_mem cs is (fun hm => h (List.mem_cons_of_mem _ hm)), zero_add]

theorem mem_of_sumAt_ne_zero {cs : List ℚ} {is : List ℕ} {j : ℕ}
    (h : sumAt cs is j ≠ 0) : j ∈ is := by
  by_contra hm
  exact h (sumAt_eq_zero_of_not_mem cs is hm)

/-- Cell sums of the canonical pair `(ks.map f, ks)` over a duplicate-free
key list read back `f`. -/
theorem sumAt_map_self (f : ℕ → ℚ) :
    ∀ {ks : List ℕ}, ks.Nodup → ∀ j, sumAt (ks.map f) ks j = if j ∈ ks then f j else 0
  | [], _, j => by simp [sumAt]
  | k :: ks, hnd, j => by
    obtain ⟨hk, hnd'⟩ := List.nodup_cons.mp hnd
    rw [List.map_cons, sumAt_cons, sumAt_map_self f hnd' j]
    by_cases hjk : j = k
    · subst hjk
      rw [if_pos rfl, if_neg hk, if_pos (List.mem_cons_self _ _), add_zero]
    · rw [if_neg (fun he => hjk he.symm), zero_add]
      by_cases hjm : j ∈ ks
      · rw [if_pos hjm, if_pos (List.mem_cons_of_mem _ hjm)]
      · rw [if_neg hjm, if_neg (by
          intro hm
          rcases List.mem_cons.mp hm with he | hm'
          · exact hjk he
          · exact hjm hm')]

theorem simpKeys_sorted (cs : List ℚ) (is : List ℕ) :
    (simpKeys cs is).Sorted (· < ·) :=
  List.Pairwise.sublist (List.filter_sublist _) (List.pairwise_lt_range _)

theorem sorted_lt_nodup {l : List ℕ} (h : l.Sorted (· < ·)) : l.Nodup :=
  h.imp Nat.ne_of_lt

theorem simpKeys_nodup (cs : List ℚ) (is : List ℕ) : (simpKeys cs is).Nodup :=
  sorted_lt_nodup (simpKeys_sorted cs is)

theorem mem_simpKeys {cs : List ℚ} {is : List ℕ} {j : ℕ} :
    j ∈ simpKeys cs is ↔ sumAt cs is j ≠ 0 := by
  unfold simpKeys
  rw [List.mem_filter]
  constructor
  · intro h
    simpa using h.2
  · intro h
    refine ⟨List.mem_range.mpr ?_, by simpa using h⟩
    have := le_maxN (mem_of_sumAt_ne_zero h)
    omega

/-- The compacted pair has the same cell sums as its input: merging is
sum-preserving. -/
theorem simplify1_sumAt (cs : List ℚ) (is : List ℕ) (j : ℕ) :
    sumAt (simplify1 cs is).1 (simplify1 cs is).2 j = sumAt cs is j := by
  show sumAt ((simpKeys cs is).map (sumAt cs is)) (simpKeys cs is) j = _
  rw [sumAt_map_self _ (simpKeys_nodup cs is) j]
  by_cases hj : j ∈ simpKeys cs is
  · rw [if_pos hj]
  · rw [if_neg hj]
    by_contra hne
    exact hj (mem_simpKeys.mpr (fun he => hne he.symm))

theorem simplify1_nonzero {cs : List ℚ} {is : List ℕ} :
    ∀ c ∈ (simplify1 cs is).1, c ≠ 0 := by
  intro c hc
  rcases List.mem_map.mp hc with ⟨j, hj, rfl⟩
  exact mem_simpKeys.mp hj

/-- Mapping the cell-sum function back over a duplicate-free key list of the
right length recovers the coefficients. -/
theorem map_sumAt_self :
    ∀ (cs : List ℚ) (is : List ℕ), is.Nodup → cs.length = is.length →
      is.map (sumAt cs is) = cs
  | [], [], _, _ => rfl
  | c :: cs, i :: is, hnd, hlen => by
    obtain ⟨hi, hnd'⟩ := List.nodup_cons.mp hnd
    have h2 : is.map (sumAt (c :: cs) (i :: is)) = is.map (sumAt cs is) :=
      List.map_congr_left (fun j hj => by
        rw [sumAt_cons, if_neg (fun he => hi (by rw [he]; exact hj)), zero_add])
    rw [List.map_cons, h2, map_sumAt_self cs is hnd' (by simpa using hlen),
      sumAt_cons, if_pos rfl, sumAt_eq_zero_of_not_mem cs is hi, add_zero]

/-- A sorted, zero-free, well-sized pair is a fixed point of the compaction:
the "no-op on already simplified data" core of idempotence. -/
theorem simplify1_canonical {cs : List ℚ} {is : List ℕ}
    (hs : is.Sorted (· < ·)) (hnz : ∀ c ∈ cs, c ≠ 0) (hlen : cs.length = is.length) :
    simplify1 cs is = (cs, is) := by
  have hnd : is.Nodup := sorted_lt_nodup hs
  have hmap := map_sumAt_self cs is hnd hlen
  have hmem : ∀ j, sumAt cs is j ≠ 0 ↔ j ∈ is := by
    intro j
    constructor
    · exact mem_of_sumAt_ne_zero
    · intro hj
      have hm : sumAt cs is j ∈ is.map (sumAt cs is) := List.mem_map_of_mem _ hj
      rw [hmap] at hm
      exact hnz _ hm
  have hkeys : simpKeys cs is = is := by
    have hperm : (simpKeys cs is).Perm is :=
      (List.perm_ext_iff_of_nodup (simpKeys_nodup cs is) hnd).mpr
        (fun a => mem_simpKeys.trans (hmem a))
    exact List.eq_of_perm_of_sorted hperm
      ((simpKeys_sorted cs is).imp le_of_lt) (hs.imp le_of_lt)
  show ((simpKeys cs is).map (sumAt cs is), simpKeys cs is) = (cs, is)
  rw [hkeys, hmap]

/-- Zipping two maps over the same list is one map. -/
theorem zipWith_map_same {α β γ δ : Type} (f : α → β) (g : α → γ) (h : β → γ → δ) :
    ∀ l : List α, List.zipWith h (l.map f) (l.map g) = l.map (fun a => h (f a) (g a))
  | [] => rfl
  | a :: l => by
    simp only [List.map_cons, List.zipWith_cons_cons]
    exact congrArg _ (zipWith_map_same f g h l)

/-- When every column is `< n`, no cell with column `≥ n` receives mass. -/
theorem sumAt2_zero_of_col_big {n j : ℕ} (hj : n ≤ j) (i : ℕ) :
    ∀ (cs : List ℚ) (rs ls : List ℕ), (∀ l ∈ ls, l < n) →
      sumAt2 cs rs ls i j = 0
  | [], rs, ls, _ => by cases rs.zip ls <;> simp [sumAt2, sumAtP]
  | _ :: _, [], ls, _ => by simp [sumAt2, sumAtP]
  | _ :: _, _ :: _, [], _ => by simp [sumAt2, sumAtP]
  | c :: cs, r :: rs, l :: ls, hl => by
    have hrec := sumAt2_zero_of_col_big hj i cs rs ls
      (fun t ht => hl t (List.mem_cons_of_mem _ ht))
    simp only [sumAt2, List.zip_cons_cons, sumAtP_cons] at hrec ⊢
    rw [hrec, if_neg (by
      rintro ⟨-, rfl⟩
      exact absurd (hl _ (List.mem_cons_self _ _)) (by omega)), zero_add]

/-- `simplify_ad` on a nonempty second-order width, written out. -/
theorem simplify_ad_of_ne {x : spAD2s} (h : x.index_col ≠ []) :
    simplify_ad x =
      some { value := x.value
             coef1 := (simplify1 x.coef1 x.index).1
             index := (simplify1 x.coef1 x.index).2
             coef2 := (simplify1 x.coef2
               (List.zipWith (fun r c => r * (1 + maxN x.index_col) + c)
                 x.index_row x.index_col)).1
             index_row := (simplify1 x.coef2
               (List.zipWith (fun r c => r * (1 + maxN x.index_col) + c)
                 x.index_row x.index_col)).2.map (fun k => k / (1 + maxN x.index_col))
             index_col := (simplify1 x.coef2
               (List.zipWith (fun r c => r * (1 + maxN x.index_col) + c)
                 x.index_row x.index_col)).2.map (fun k => k % (1 + maxN x.index_col)) } := by
  unfold simplify_ad
  rw [if_neg h]

end spAD2s

namespace spAD2s

/-- C1: multiplying identity scalars 2.0 (index 0) and 3.0 (index 1) gives
value 6, first-order terms (3,0),(2,1), second-order outer product emitted
as both (0,1) and (1,0) with coefficient 1, and `simplify_ad` keeps exactly
those two nonzero second-order entries. -/
theorem C1_mul_identity_scenario :
    mul (identityS 2 0) (identityS 3 1) =
      ({ value := 6, coef1 := [3, 2], index := [0, 1], coef2 := [1, 1],
         index_row := [0, 1], index_col := [1, 0] } : spAD2s) ∧
    simplify_ad (mul (identityS 2 0) (identityS 3 1)) =
      some ({ value := 6, coef1 := [3, 2], index := [0, 1], coef2 := [1, 1],
              index_row := [0, 1], index_col := [1, 0] } : spAD2s) := by
  have h : mul (identityS 2 0) (identityS 3 1) =
      ({ value := 6, coef1 := [3, 2], index := [0, 1], coef2 := [1, 1],
         index_row := [0, 1], index_col := [1, 0] } : spAD2s) := by
    simp [mul, identityS, repeatL, tileL]
    norm_num
  refine ⟨h, ?_⟩
  rw [h]
  simp [simplify_ad, simplify1, simpKeys, maxN, sumAt, List.range_succ]

/-- C2: `_math_helper` applies the uniform chain rule — first-order terms
scaled by `b` with indices unchanged, second-order terms `b` times the old
ones followed by `c` times every ordered pair (self-pairs included) from the
outer product of the first-order terms with themselves; instantiated at
`sqrt` of the identity variable 4.0 at index 0 this gives value 2,
first-order coefficient 1/4 at index 0 and second-order coefficient -1/32
at (0,0). -/
theorem C2_math_helper_chain_rule :
    (∀ (x : spAD2s) (a b c : ℚ), x.WF →
      (math_helper x (a, b, c)).value = a ∧
      (math_helper x (a, b, c)).coef1 = x.coef1.map (fun t => b * t) ∧
      (math_helper x (a, b, c)).index = x.index ∧
      (math_helper x (a, b, c)).coef2.zip
          ((math_helper x (a, b, c)).index_row.zip (math_helper x (a, b, c)).index_col) =
        (x.coef2.zip (x.index_row.zip x.index_col)).map (fun q => (b * q.1, q.2)) ++
          (x.coef1.zip x.index).flatMap
            (fun p => (x.coef1.zip x.index).map (fun q => (c * (p.1 * q.1), p.2, q.2)))) ∧
    sqrtS (identityS 4 0) =
      ({ value := 2, coef1 := [1 / 4], index := [0], coef2 := [-(1 / 32)],
         index_row := [0], index_col := [0] } : spAD2s) := by
  constructor
  · intro x a b c hwf
    obtain ⟨h1, h2, h3⟩ := hwf
    refine ⟨rfl, rfl, rfl, ?_⟩
    show (x.coef2.map (fun t => b * t) ++ _).zip
        ((x.index_row ++ _).zip (x.index_col ++ _)) = _
    rw [List.zip_append (h2.symm.trans h3)]
    rw [List.zip_append (by simp [← h2, ← h3])]
    rw [cross_zip c x.coef1 x.index x.coef1 x.index h1 h1]
    congr 1
    rw [List.zip_map_left]
    apply List.map_congr_left
    intro q _
    cases q
    rfl
  · have h4 : Rat.sqrt 4 = 2 := by
      rw [show (4 : ℚ) = 2 * 2 by norm_num, Rat.sqrt_eq]
      norm_num
    simp [sqrtS, sqrt2, math_helper, identityS, repeatL, tileL, h4]
    norm_num

/-- A dense vector built as the map of a cell function over `range b` reads
back cell `j` for `j < b`. -/
theorem getD_range_map {α : Type} (f : ℕ → α) (d : α) {b j : ℕ} (hj : j < b) :
    ((List.range b).map f).getD j d = f j := by
  rw [List.getD_eq_getElem?_getD, List.getElem?_map, List.getElem?_range hj]
  rfl

/-- C4: `to_dense(bound)` scatter-accumulates the first-order
`(coef, index)` pairs into a dense length-`bound` vector and the
second-order `(coef, row, col)` triples into a dense `bound × bound`
matrix, summing contributions landing on the same cell; the omitted bound
defaults to `bound_ad()`, one more than the largest index referenced in
`index`, `index_row`, `index_col`. -/
theorem C4_to_dense_scatter :
    (∀ (x : spAD2s) (b : ℕ),
      (∀ i ∈ x.index, i < b) → (∀ r ∈ x.index_row, r < b) → (∀ c ∈ x.index_col, c < b) →
      ∃ v m, to_dense x b = some (v, m) ∧ v.length = b ∧ m.length = b ∧
        (∀ j, j < b → v.getD j 0 = sumAt x.coef1 x.index j) ∧
        (∀ i j, i < b → j < b →
          (m.getD i []).getD j 0 = sumAt2 x.coef2 x.index_row x.index_col i j)) ∧
    (∀ x : spAD2s, to_denseD x = to_dense x (bound_ad x)) ∧
    (∀ x : spAD2s, x.index ++ x.index_row ++ x.index_col ≠ [] →
      bound_ad x = maxN (x.index ++ x.index_row ++ x.index_col) + 1) := by
  refine ⟨?_, fun x => rfl, fun x h => bound_ad_eq h⟩
  intro x b hi hr hc
  refine ⟨(List.range b).map (sumAt x.coef1 x.index),
    (List.range b).map (fun i => (List.range b).map (fun j =>
      sumAt x.coef2 (List.zipWith (fun r c => r * b + c) x.index_row x.index_col) (i * b + j))),
    ?_, by simp, by simp, ?_, ?_⟩
  · simp only [to_dense]
    rw [if_pos ⟨hi, key_lt b _ _ hr hc⟩]
  · intro j hj
    rw [getD_range_map _ _ hj]
  · intro i j hij hj
    rw [getD_range_map _ _ hij, getD_range_map _ _ hj]
    exact sumAt_key b x.coef2 x.index_row x.index_col hc i j hj

/-- Witness for C4: the scatter description instantiated at a concrete
two-variable scalar with bound 2. -/
theorem C4_to_dense_scatter_witness :
    ∃ v m, to_dense (⟨7, [2], [0], [3], [0], [1]⟩ : spAD2s) 2 = some (v, m) ∧
      v.length = 2 ∧ m.length = 2 ∧
      (∀ j, j < 2 → v.getD j 0 =
        sumAt (⟨7, [2], [0], [3], [0], [1]⟩ : spAD2s).coef1
          (⟨7, [2], [0], [3], [0], [1]⟩ : spAD2s).index j) ∧
      (∀ i j, i < 2 → j < 2 → (m.getD i []).getD j 0 =
        sumAt2 (⟨7, [2], [0], [3], [0], [1]⟩ : spAD2s).coef2
          (⟨7, [2], [0], [3], [0], [1]⟩ : spAD2s).index_row
          (⟨7, [2], [0], [3], [0], [1]⟩ : spAD2s).index_col i j) :=
  C4_to_dense_scatter.1 (⟨7, [2], [0], [3], [0], [1]⟩ : spAD2s) 2
    (by decide) (by decide) (by decide)

/-- C7 counterexample: on the scalar with the single second-order triple
`(1, (0, 3))`, the bound 2 is strictly smaller than the largest referenced
index 3, yet `to_dense` raises no error: it returns a dense result with the
contribution silently misplaced at cell `(1, 1)` (the combined key
`0·2+3 = 3` decodes there). -/
theorem C7_counterexample_misplaced_scatter :
    2 < maxN ((⟨1, [], [], [1], [0], [3]⟩ : spAD2s).index ++
        (⟨1, [], [], [1], [0], [3]⟩ : spAD2s).index_row ++
        (⟨1, [], [], [1], [0], [3]⟩ : spAD2s).index_col) ∧
    to_dense (⟨1, [], [], [1], [0], [3]⟩ : spAD2s) 2 =
      some ([0, 0], [[0, 0], [0, 1]]) := by
  constructor
  · decide
  · simp [to_dense, sumAt, List.range_succ]

/-- C7 (amended): `to_dense(bound)` fails fast — producing no dense result —
whenever some first-order index reaches `bound` or some combined
second-order key `row·bound+col` reaches `bound²`; an undersized bound is
only detected through these conditions (a column overflow whose combined
key stays below `bound²` is instead misplaced, per the counterexample). -/
theorem C7_amended_fail_fast (x : spAD2s) (b : ℕ)
    (h : (∃ i ∈ x.index, b ≤ i) ∨
      (∃ k ∈ List.zipWith (fun r c => r * b + c) x.index_row x.index_col, b * b ≤ k)) :
    to_dense x b = none := by
  simp only [to_dense]
  rw [if_neg]
  rintro ⟨h1, h2⟩
  rcases h with ⟨i, hi, hbi⟩ | ⟨k, hk, hbk⟩
  · exact absurd (h1 i hi) (by omega)
  · exact absurd (h2 k hk) (by omega)

/-- Witness for the amended C7: a first-order index 5 with bound 2 fails. -/
theorem C7_amended_fail_fast_witness :
    to_dense (⟨0, [1], [5], [], [], []⟩ : spAD2s) 2 = none :=
  C7_amended_fail_fast _ 2 (Or.inl ⟨5, by decide, by decide⟩)

/-- C8: `solve_stationnary` assembles the triplet Hessian from the
second-order data verbatim and the dense right-hand side `-gradient` via
ToDense over the index bound, returning the raw pair under `raw=True`; with
`raw=False` and no referenced indices the external solve fails because the
matrix dimensions cannot be inferred from the empty triplets. -/
theorem C8_stationnary_assembly :
    (∀ x : spAD2s,
      solve_stationnary_raw x =
        some ((x.coef2, x.index_row, x.index_col),
          (List.range (bound_ad x)).map (fun j => -sumAt x.coef1 x.index j))) ∧
    (∀ (solver : (List ℚ × List ℕ × List ℕ) → List ℚ → List ℚ) (x : spAD2s),
      x.index = [] → x.index_row = [] → x.index_col = [] →
      solve_stationnary solver x = none) := by
  refine ⟨stationnary_raw_eq, ?_⟩
  intro solver x h1 h2 h3
  simp [solve_stationnary, stationnary_raw_eq, spsolve, triplets, h2]

/-- Witness for C8: a derivative-free scalar makes the non-raw solve fail. -/
theorem C8_stationnary_assembly_witness :
    solve_stationnary (fun _ r => r) (⟨5, [], [], [], [], []⟩ : spAD2s) = none :=
  C8_stationnary_assembly.2 (fun _ r => r) (⟨5, [], [], [], [], []⟩ : spAD2s) rfl rfl rfl

/-- C3 counterexample: on the scalar quadratic with gradient entries
`(1, 0), (2, 1)` and the single Hessian triple `(7, (1, 0))` (so `bound`
is 2 and the split is `n = 1`), the claim's selection — v-rows (`row < n`)
to u-columns (`col ≥ n`) with the corresponding sub-vector `r[:n] = [-1]` —
is empty, while `solve_weakform` actually keeps the `(row ≥ n, col < n)`
entry `7` (row shifted to 0) and the tail `r[n:] = [-2]`. -/
theorem C3_counterexample_orientation :
    solve_weakform_raw (⟨0, [1, 2], [0, 1], [7], [1], [0]⟩ : spAD2s) =
      some (([7], [0], [0]), [-2]) ∧
    weakform_claimed (⟨0, [1, 2], [0, 1], [7], [1], [0]⟩ : spAD2s) =
      some (([], [], []), [-1]) ∧
    solve_weakform_raw (⟨0, [1, 2], [0, 1], [7], [1], [0]⟩ : spAD2s) ≠
      weakform_claimed (⟨0, [1, 2], [0, 1], [7], [1], [0]⟩ : spAD2s) := by
  have h : solve_weakform_raw (⟨0, [1, 2], [0, 1], [7], [1], [0]⟩ : spAD2s) =
      some (([7], [0], [0]), [-2]) := by
    simp [solve_weakform_raw, stationnary_raw_eq, bound_ad, maxI, maxN,
      List.range_succ, sumAt]
  have h' : weakform_claimed (⟨0, [1, 2], [0, 1], [7], [1], [0]⟩ : spAD2s) =
      some (([], [], []), [-1]) := by
    simp [weakform_claimed, stationnary_raw_eq, bound_ad, maxI, maxN,
      List.range_succ, sumAt]
  refine ⟨h, h', ?_⟩
  rw [h, h']
  intro hc
  simp at hc

/-- C3 (amended): `solve_weakform` builds the full raw system `(H, r)`,
then keeps the sub-block of `H` whose rows lie in the high index block
(`row ≥ n`, shifted down by `n`, with `n = bound/2`) and whose columns lie
in the low block (`col < n`), together with the tail `r[n:]` of the
right-hand side, returning that reduced pair when `raw=True`; cell `(i,j)`
of the reduced system is cell `(n+i, j)` of the full Hessian. -/
theorem C3_amended_weakform_selection (x : spAD2s) :
    ∃ kept rhs,
      solve_stationnary_raw x = some ((x.coef2, x.index_row, x.index_col), rhs) ∧
      solve_weakform_raw x = some (kept, rhs.drop (bound_ad x / 2)) ∧
      (∀ l ∈ kept.2.2, l < bound_ad x / 2) ∧
      (∀ i j, j < bound_ad x / 2 →
        sumAt2 kept.1 kept.2.1 kept.2.2 i j =
          sumAt2 x.coef2 x.index_row x.index_col (bound_ad x / 2 + i) j) := by
  have hs := stationnary_raw_eq x
  set n := bound_ad x / 2 with hn
  set K := (x.coef2.zip (x.index_row.zip x.index_col)).filter
    (fun q => decide (n ≤ q.2.1) && decide (q.2.2 < n)) with hK
  refine ⟨(K.map (fun q => q.1), K.map (fun q => q.2.1 - n), K.map (fun q => q.2.2)),
    (List.range (bound_ad x)).map (fun j => -sumAt x.coef1 x.index j), hs, ?_, ?_, ?_⟩
  · simp only [solve_weakform_raw, hs, Option.map_some, triplets]
    simp [hn, hK]
  · intro l hl
    rcases List.mem_map.mp hl with ⟨q, hq, rfl⟩
    have := (List.mem_filter.mp (hK ▸ hq)).2
    simp at this
    exact this.2
  · intro i j hj
    show sumAt2 (K.map (fun q => q.1)) (K.map (fun q => q.2.1 - n)) (K.map (fun q => q.2.2))
        i j = _
    unfold sumAt2
    rw [zip_map_three (fun q : ℚ × ℕ × ℕ => q.1) (fun q => q.2.1 - n) (fun q => q.2.2) K]
    rw [hK]
    exact sumAtP_filter_shift n i j hj (x.coef2.zip (x.index_row.zip x.index_col))

/-- Witness for the amended C3: the selection facts at the concrete scalar
of the counterexample. -/
theorem C3_amended_weakform_selection_witness :
    ∃ kept rhs,
      solve_stationnary_raw (⟨0, [1, 2], [0, 1], [7], [1], [0]⟩ : spAD2s) =
        some (((⟨0, [1, 2], [0, 1], [7], [1], [0]⟩ : spAD2s).coef2,
          (⟨0, [1, 2], [0, 1], [7], [1], [0]⟩ : spAD2s).index_row,
          (⟨0, [1, 2], [0, 1], [7], [1], [0]⟩ : spAD2s).index_col), rhs) ∧
      solve_weakform_raw (⟨0, [1, 2], [0, 1], [7], [1], [0]⟩ : spAD2s) =
        some (kept, rhs.drop (bound_ad (⟨0, [1, 2], [0, 1], [7], [1], [0]⟩ : spAD2s) / 2)) ∧
      (∀ l ∈ kept.2.2, l < bound_ad (⟨0, [1, 2], [0, 1], [7], [1], [0]⟩ : spAD2s) / 2) ∧
      (∀ i j, j < bound_ad (⟨0, [1, 2], [0, 1], [7], [1], [0]⟩ : spAD2s) / 2 →
        sumAt2 kept.1 kept.2.1 kept.2.2 i j =
          sumAt2 (⟨0, [1, 2], [0, 1], [7], [1], [0]⟩ : spAD2s).coef2
            (⟨0, [1, 2], [0, 1], [7], [1], [0]⟩ : spAD2s).index_row
            (⟨0, [1, 2], [0, 1], [7], [1], [0]⟩ : spAD2s).index_col
            (bound_ad (⟨0, [1, 2], [0, 1], [7], [1], [0]⟩ : spAD2s) / 2 + i) j) :=
  C3_amended_weakform_selection (⟨0, [1, 2], [0, 1], [7], [1], [0]⟩ : spAD2s)

/-- C10: `simplify_ad` needs a second-order width of at least one — on a
fresh identity output (trailing dimension 0) the `np.max` over the empty
`index_col` raises, so the call fails instead of acting as a no-op; and
under that precondition the combined key `row·(max_col+1)+col` and its
div/mod decode recover every `(row, col)` pair exactly. -/
theorem C10_simplify_width_and_key_roundtrip :
    (∀ (v : ℚ) (i : ℕ), simplify_ad (identityS v i) = none) ∧
    (∀ x : spAD2s, x.index_col = [] → simplify_ad x = none) ∧
    (∀ (x : spAD2s) (p : ℕ × ℕ), p ∈ x.index_row.zip x.index_col →
      (p.1 * (1 + maxN x.index_col) + p.2) / (1 + maxN x.index_col) = p.1 ∧
      (p.1 * (1 + maxN x.index_col) + p.2) % (1 + maxN x.index_col) = p.2) := by
  refine ⟨fun v i => rfl, fun x h => by unfold simplify_ad; rw [if_pos h], ?_⟩
  intro x p hp
  have hc : p.2 ∈ x.index_col := (List.of_mem_zip hp).2
  have hlt : p.2 < 1 + maxN x.index_col := by
    have := le_maxN hc
    omega
  constructor
  · rw [Nat.mul_comm p.1 (1 + maxN x.index_col), Nat.mul_add_div (by omega),
      Nat.div_eq_of_lt hlt, Nat.add_zero]
  · rw [Nat.mul_comm p.1 (1 + maxN x.index_col), Nat.mul_add_mod, Nat.mod_eq_of_lt hlt]

/-- Witness for C10: the identity scalar 1.0 at index 0, and the key
round-trip on a concrete pair. -/
theorem C10_simplify_width_witness :
    simplify_ad (identityS 1 0) = none ∧
    ((⟨0, [], [], [1], [2], [1]⟩ : spAD2s).index_row.zip
        (⟨0, [], [], [1], [2], [1]⟩ : spAD2s).index_col ≠ [] ∧
      (2 * (1 + maxN (⟨0, [], [], [1], [2], [1]⟩ : spAD2s).index_col) + 1) /
          (1 + maxN (⟨0, [], [], [1], [2], [1]⟩ : spAD2s).index_col) = 2 ∧
      (2 * (1 + maxN (⟨0, [], [], [1], [2], [1]⟩ : spAD2s).index_col) + 1) %
          (1 + maxN (⟨0, [], [], [1], [2], [1]⟩ : spAD2s).index_col) = 1) :=
  ⟨C10_simplify_width_and_key_roundtrip.1 1 0,
    by decide,
    (C10_simplify_width_and_key_roundtrip.2.2 (⟨0, [], [], [1], [2], [1]⟩ : spAD2s)
      (2, 1) (by decide)).1,
    (C10_simplify_width_and_key_roundtrip.2.2 (⟨0, [], [], [1], [2], [1]⟩ : spAD2s)
      (2, 1) (by decide)).2⟩

/-- C5 counterexample: a scalar whose only second-order entry has
coefficient 0 simplifies fine (to an empty second order), but re-simplifying
the simplified array raises (`np.max` over the now empty `index_col`) —
`simplify(simplify(x))` is an error, not `simplify(x)`. -/
theorem C5_counterexample_resimplify_raises :
    simplify_ad (⟨1, [1], [0], [0], [0], [0]⟩ : spAD2s) =
      some (⟨1, [1], [0], [], [], []⟩ : spAD2s) ∧
    simplify_ad (⟨1, [1], [0], [], [], []⟩ : spAD2s) = none := by
  constructor
  · simp [simplify_ad, simplify1, simpKeys, maxN, sumAt, List.range_succ]
  · rfl

/-- C5 (amended): `simplify_ad` preserves the value, merges the first-order
entries per global index and the second-order entries per `(row, col)` pair
into single summed nonzero entries, and is idempotent on every array whose
simplified form still has a nonempty second-order width; when every
second-order coefficient sums to zero, the simplified array has width 0 and
re-simplifying it raises instead. -/
theorem C5_simplify_value_merge_idempotent (x y : spAD2s)
    (h : simplify_ad x = some y) :
    y.value = x.value ∧
    y.index.Nodup ∧ (∀ c ∈ y.coef1, c ≠ 0) ∧
    (∀ j, sumAt y.coef1 y.index j = sumAt x.coef1 x.index j) ∧
    (y.index_row.zip y.index_col).Nodup ∧ (∀ c ∈ y.coef2, c ≠ 0) ∧
    (∀ i j, sumAt2 y.coef2 y.index_row y.index_col i j =
      sumAt2 x.coef2 x.index_row x.index_col i j) ∧
    (y.index_col ≠ [] → simplify_ad y = some y) := by
  have hcol : x.index_col ≠ [] := by
    intro he
    rw [simplify_ad, if_pos he] at h
    exact Option.noConfusion h
  rw [simplify_ad_of_ne hcol] at h
  injection h with h
  subst h
  set n := 1 + maxN x.index_col with hn
  set keys := List.zipWith (fun r c => r * n + c) x.index_row x.index_col with hkeys
  set ks := simpKeys x.coef2 keys with hks
  set f2 := sumAt x.coef2 keys with hf2
  have hnpos : 0 < n := by omega
  have hcolx : ∀ l ∈ x.index_col, l < n := by
    intro l hl
    have := le_maxN hl
    omega
  have hcoly : ∀ l ∈ ks.map (fun k => k % n), l < n := by
    intro l hl
    rcases List.mem_map.mp hl with ⟨k, -, rfl⟩
    exact Nat.mod_lt _ hnpos
  have hid : ks.map (fun k => k / n * n + k % n) = ks :=
    (List.map_congr_left (fun k _ => by
      rw [Nat.mul_comm]
      exact Nat.div_add_mod k n)).trans (List.map_id ks)
  refine ⟨rfl, simpKeys_nodup _ _, simplify1_nonzero, simplify1_sumAt _ _, ?_, ?_, ?_, ?_⟩
  · show ((ks.map (fun k => k / n)).zip (ks.map (fun k => k % n))).Nodup
    rw [List.zip_map']
    refine List.Nodup.map ?_ (simpKeys_nodup _ _)
    intro k1 k2 he
    have h1 : k1 / n = k2 / n := congrArg Prod.fst he
    have h2 : k1 % n = k2 % n := congrArg Prod.snd he
    calc k1 = n * (k1 / n) + k1 % n := (Nat.div_add_mod k1 n).symm
      _ = n * (k2 / n) + k2 % n := by rw [h1, h2]
      _ = k2 := Nat.div_add_mod k2 n
  · exact simplify1_nonzero
  · intro i j
    by_cases hj : j < n
    · have hx := sumAt_key n x.coef2 x.index_row x.index_col hcolx i j hj
      have hy := sumAt_key n (ks.map f2) (ks.map (fun k => k / n))
        (ks.map (fun k => k % n)) hcoly i j hj
      rw [zipWith_map_same, hid] at hy
      show sumAt2 (ks.map f2) (ks.map (fun k => k / n)) (ks.map (fun k => k % n)) i j = _
      rw [← hy, ← hx]
      exact simplify1_sumAt x.coef2 keys (i * n + j)
    · show sumAt2 (ks.map f2) (ks.map (fun k => k / n)) (ks.map (fun k => k % n)) i j = _
      rw [sumAt2_zero_of_col_big (n := n) (by omega) i _ _ _ hcoly,
        sumAt2_zero_of_col_big (n := n) (by omega) i _ _ _ hcolx]
  · intro hne
    have hne' : ks.map (fun k => k % n) ≠ [] := hne
    rw [simplify_ad_of_ne hne']
    refine congrArg some ?_
    have e1 : simplify1 ((simpKeys x.coef1 x.index).map (sumAt x.coef1 x.index))
        (simpKeys x.coef1 x.index) =
        ((simpKeys x.coef1 x.index).map (sumAt x.coef1 x.index), simpKeys x.coef1 x.index) :=
      simplify1_canonical (simpKeys_sorted _ _) simplify1_nonzero (by simp)
    set m := 1 + maxN (ks.map (fun k => k % n)) with hm
    have hmpos : 0 < m := by omega
    have hcol' : ∀ k ∈ ks, k % n < m := by
      intro k hk
      have h1 : k % n ≤ maxN (ks.map (fun k => k % n)) :=
        le_maxN (List.mem_map_of_mem (fun k => k % n) hk)
      omega
    have hkeys2 : List.zipWith (fun r c => r * m + c)
        (ks.map (fun k => k / n)) (ks.map (fun k => k % n)) =
        ks.map (fun k => k / n * m + k % n) := zipWith_map_same _ _ _ ks
    have hsorted2 : (ks.map (fun k => k / n * m + k % n)).Sorted (· < ·) := by
      refine List.pairwise_map.mpr ?_
      refine List.Pairwise.imp_of_mem ?_ (simpKeys_sorted x.coef2 keys)
      intro a b ha hb hab
      have hca := hcol' a ha
      have hcb := hcol' b hb
      rcases Nat.lt_or_ge (a / n) (b / n) with hdiv | hdiv
      · calc a / n * m + a % n < a / n * m + m := by omega
          _ = (a / n + 1) * m := by ring
          _ ≤ b / n * m := Nat.mul_le_mul_right _ (by omega)
          _ ≤ b / n * m + b % n := Nat.le_add_right _ _
      · have heq : a / n = b / n := le_antisymm (Nat.div_le_div_right (le_of_lt hab)) hdiv
        have ha' := Nat.div_add_mod a n
        have hb' := Nat.div_add_mod b n
        rw [heq] at ha'
        have hmod : a % n < b % n := by
          have hgen : ∀ t : ℕ, t + a % n = a → t + b % n = b → a % n < b % n :=
            fun t h1 h2 => by omega
          exact hgen (n * (b / n)) ha' hb'
        rw [heq]
        omega
    have e2 : simplify1 (ks.map f2) (ks.map (fun k => k / n * m + k % n)) =
        (ks.map f2, ks.map (fun k => k / n * m + k % n)) := by
      refine simplify1_canonical hsorted2 ?_ (by simp)
      intro c hc
      rcases List.mem_map.mp hc with ⟨k, hk, rfl⟩
      exact mem_simpKeys.mp hk
    have e3 : (ks.map (fun k => k / n * m + k % n)).map (fun k => k / m) =
        ks.map (fun k => k / n) := by
      rw [List.map_map]
      refine List.map_congr_left ?_
      intro k hk
      show (k / n * m + k % n) / m = k / n
      rw [Nat.mul_comm (k / n) m, Nat.mul_add_div hmpos,
        Nat.div_eq_of_lt (hcol' k hk), Nat.add_zero]
    have e4 : (ks.map (fun k => k / n * m + k % n)).map (fun k => k % m) =
        ks.map (fun k => k % n) := by
      rw [List.map_map]
      refine List.map_congr_left ?_
      intro k hk
      show (k / n * m + k % n) % m = k % n
      rw [Nat.mul_comm (k / n) m, Nat.mul_add_mod, Nat.mod_eq_of_lt (hcol' k hk)]
    show ({ value := x.value
            coef1 := (simplify1 ((simpKeys x.coef1 x.index).map (sumAt x.coef1 x.index))
              (simpKeys x.coef1 x.index)).1
            index := (simplify1 ((simpKeys x.coef1 x.index).map (sumAt x.coef1 x.index))
              (simpKeys x.coef1 x.index)).2
            coef2 := (simplify1 (ks.map f2) (List.zipWith (fun r c => r * m + c)
              (ks.map (fun k => k / n)) (ks.map (fun k => k % n)))).1
            index_row := (simplify1 (ks.map f2) (List.zipWith (fun r c => r * m + c)
              (ks.map (fun k => k / n)) (ks.map (fun k => k % n)))).2.map (fun k => k / m)
            index_col := (simplify1 (ks.map f2) (List.zipWith (fun r c => r * m + c)
              (ks.map (fun k => k / n)) (ks.map (fun k => k % n)))).2.map (fun k => k % m) } :
          spAD2s) =
      ({ value := x.value
         coef1 := (simpKeys x.coef1 x.index).map (sumAt x.coef1 x.index)
         index := simpKeys x.coef1 x.index
         coef2 := ks.map f2
         index_row := ks.map (fun k => k / n)
         index_col := ks.map (fun k => k % n) } : spAD2s)
    rw [hkeys2, e1, e2, e3, e4]

/-- Witness for C2: the chain rule instantiated at the identity variable
4.0 with the analytic triple (9, 5, 7). -/
theorem C2_math_helper_chain_rule_witness :
    (math_helper (identityS 4 0) (9, 5, 7)).coef2.zip
        ((math_helper (identityS 4 0) (9, 5, 7)).index_row.zip
          (math_helper (identityS 4 0) (9, 5, 7)).index_col) =
      ((identityS 4 0).coef2.zip
          ((identityS 4 0).index_row.zip (identityS 4 0).index_col)).map
          (fun q => (5 * q.1, q.2)) ++
        ((identityS 4 0).coef1.zip (identityS 4 0).index).flatMap
          (fun p => ((identityS 4 0).coef1.zip (identityS 4 0).index).map
            (fun q => (7 * (p.1 * q.1), p.2, q.2))) :=
  (C2_math_helper_chain_rule.1 (identityS 4 0) 9 5 7 (by decide)).2.2.2

/-- Witness for the amended C5: the simplified C1 product is a fixed point
of `simplify_ad`. -/
theorem C5_simplify_value_merge_idempotent_witness :
    simplify_ad (⟨6, [3, 2], [0, 1], [1, 1], [0, 1], [1, 0]⟩ : spAD2s) =
      some (⟨6, [3, 2], [0, 1], [1, 1], [0, 1], [1, 0]⟩ : spAD2s) :=
  (C5_simplify_value_merge_idempotent
      (⟨6, [3, 2], [0, 1], [1, 1], [0, 1], [1, 0]⟩ : spAD2s)
      (⟨6, [3, 2], [0, 1], [1, 1], [0, 1], [1, 0]⟩ : spAD2s)
      (by simp [simplify_ad, simplify1, simpKeys, maxN, sumAt,
        List.range_succ])).2.2.2.2.2.2.2 (by simp)

end spAD2s

namespace spArr

/-- With a well-shaped scalar right-hand side and an in-range key, the
assignment succeeds and produces exactly the widen-then-write state: each
order padded to the max of the two widths (a no-op when the target is
already as wide), every row zero-padded, and row `i` overwritten by the
padded right-hand-side row. -/
theorem setitem_ok (t : spArr) (i : ℕ) (v : ℚ) (w1 w2 : ℕ)
    (rc1 : List ℚ) (ri1 : List ℕ) (rc2 : List ℚ) (rr2 rl2 : List ℕ)
    (hi : i < t.value.length) (htw : t.index.w = t.coef1.w)
    (hrw : t.index_row.w = t.coef2.w) (hlw : t.index_col.w = t.coef2.w) :
    setitem t i ⟨[v], ⟨w1, [rc1]⟩, ⟨w1, [ri1]⟩, ⟨w2, [rc2]⟩, ⟨w2, [rr2]⟩, ⟨w2, [rl2]⟩⟩ =
      Except.ok
        { value := t.value.set i v
          coef1 := ⟨max t.coef1.w w1,
            (t.coef1.rows.map
              (fun r => r ++ List.replicate (max t.coef1.w w1 - t.coef1.w) 0)).set i
              (rc1 ++ List.replicate (max t.coef1.w w1 - w1) 0)⟩
          index := ⟨max t.coef1.w w1,
            (t.index.rows.map
              (fun r => r ++ List.replicate (max t.coef1.w w1 - t.index.w) 0)).set i
              (ri1 ++ List.replicate (max t.coef1.w w1 - w1) 0)⟩
          coef2 := ⟨max t.coef2.w w2,
            (t.coef2.rows.map
              (fun r => r ++ List.replicate (max t.coef2.w w2 - t.coef2.w) 0)).set i
              (rc2 ++ List.replicate (max t.coef2.w w2 - w2) 0)⟩
          index_row := ⟨max t.coef2.w w2,
            (t.index_row.rows.map
              (fun r => r ++ List.replicate (max t.coef2.w w2 - t.index_row.w) 0)).set i
              (rr2 ++ List.replicate (max t.coef2.w w2 - w2) 0)⟩
          index_col := ⟨max t.coef2.w w2,
            (t.index_col.rows.map
              (fun r => r ++ List.replicate (max t.coef2.w w2 - t.index_col.w) 0)).set i
              (rl2 ++ List.replicate (max t.coef2.w w2 - w2) 0)⟩ } := by
  by_cases hw1 : t.coef1.w < max t.coef1.w w1
  · by_cases hw2 : t.coef2.w < max t.coef2.w w2
    · simp only [setitem, setRow]
      rw [if_pos hi]
      simp [htw, hrw, hlw, Nat.le_max_right, hw1, hw2]
    · have h2 : max t.coef2.w w2 = t.coef2.w := by omega
      have h2w : w2 ≤ t.coef2.w := by omega
      simp only [setitem, setRow]
      rw [if_pos hi]
      simp [htw, hrw, hlw, Nat.le_max_right, hw1, hw2, h2, h2w]
  · have h1 : max t.coef1.w w1 = t.coef1.w := by omega
    have h1w : w1 ≤ t.coef1.w := by omega
    by_cases hw2 : t.coef2.w < max t.coef2.w w2
    · simp only [setitem, setRow]
      rw [if_pos hi]
      simp [htw, hrw, hlw, Nat.le_max_right, hw1, hw2, h1, h1w]
    · have h2 : max t.coef2.w w2 = t.coef2.w := by omega
      have h2w : w2 ≤ t.coef2.w := by omega
      simp only [setitem, setRow]
      rw [if_pos hi]
      simp [htw, hrw, hlw, Nat.le_max_right, hw1, hw2, h1, h1w, h2, h2w]

/-- C9: an indexed assignment from a right-hand side whose sparse widths
exceed the target's grows each order's storage to the padded width before
writing (the two orders independently, `pad = max` of the two widths),
padding every existing entry with zero-coefficient/zero-index placeholders;
every entry outside the assigned key keeps its original value and indices up
to that zero padding. -/
theorem C9_setitem_widening (t o : spArr) (i : ℕ)
    (hi : i < t.value.length) (ho : WFs o)
    (htw : t.index.w = t.coef1.w)
    (hrw : t.index_row.w = t.coef2.w) (hlw : t.index_col.w = t.coef2.w) :
    ∃ t', setitem t i o = Except.ok t' ∧
      t'.coef1.w = max t.coef1.w o.coef1.w ∧ t'.index.w = max t.coef1.w o.coef1.w ∧
      t'.coef2.w = max t.coef2.w o.coef2.w ∧ t'.index_row.w = max t.coef2.w o.coef2.w ∧
      t'.index_col.w = max t.coef2.w o.coef2.w ∧
      (∀ j, j ≠ i →
        t'.value[j]? = t.value[j]? ∧
        t'.coef1.rows[j]? = (t.coef1.rows[j]?).map
          (fun r => r ++ List.replicate (max t.coef1.w o.coef1.w - t.coef1.w) 0) ∧
        t'.index.rows[j]? = (t.index.rows[j]?).map
          (fun r => r ++ List.replicate (max t.coef1.w o.coef1.w - t.index.w) 0) ∧
        t'.coef2.rows[j]? = (t.coef2.rows[j]?).map
          (fun r => r ++ List.replicate (max t.coef2.w o.coef2.w - t.coef2.w) 0) ∧
        t'.index_row.rows[j]? = (t.index_row.rows[j]?).map
          (fun r => r ++ List.replicate (max t.coef2.w o.coef2.w - t.index_row.w) 0) ∧
        t'.index_col.rows[j]? = (t.index_col.rows[j]?).map
          (fun r => r ++ List.replicate (max t.coef2.w o.coef2.w - t.index_col.w) 0)) := by
  obtain ⟨ov, ⟨wc1, rc1s⟩, ⟨wi1, ri1s⟩, ⟨wc2, rc2s⟩, ⟨wr2, rr2s⟩, ⟨wl2, rl2s⟩⟩ := o
  obtain ⟨h1, h2, h3, h4, h5, h6, h7, h8, h9⟩ := ho
  simp only at h1 h2 h3 h4 h5 h6 h7 h8 h9
  obtain ⟨v, rfl⟩ := List.length_eq_one.mp h1
  obtain ⟨rc1, rfl⟩ := List.length_eq_one.mp h2
  obtain ⟨ri1, rfl⟩ := List.length_eq_one.mp h3
  obtain ⟨rc2, rfl⟩ := List.length_eq_one.mp h4
  obtain ⟨rr2, rfl⟩ := List.length_eq_one.mp h5
  obtain ⟨rl2, rfl⟩ := List.length_eq_one.mp h6
  subst h7
  subst h8
  subst h9
  refine ⟨_, setitem_ok t i v _ _ rc1 ri1 rc2 rr2 rl2 hi htw hrw hlw, rfl, rfl, rfl,
    rfl, rfl, ?_⟩
  intro j hj
  have hj' : i ≠ j := fun he => hj he.symm
  refine ⟨List.getElem?_set_ne hj', ?_, ?_, ?_, ?_, ?_⟩ <;>
    · rw [List.getElem?_set_ne hj', List.getElem?_map]

/-- Witness for C9: widening a width-1 two-element array from a width-2
scalar right-hand side. -/
theorem C9_setitem_widening_witness :
    ∃ t', setitem
        (⟨[1, 2], ⟨1, [[3], [4]]⟩, ⟨1, [[0], [1]]⟩, ⟨1, [[5], [6]]⟩,
          ⟨1, [[0], [0]]⟩, ⟨1, [[0], [1]]⟩⟩ : spArr) 0
        (⟨[9], ⟨2, [[7, 8]]⟩, ⟨2, [[2, 3]]⟩, ⟨1, [[4]]⟩, ⟨1, [[2]]⟩, ⟨1, [[2]]⟩⟩ : spArr) =
      Except.ok t' ∧
      t'.coef1.w = 2 ∧ t'.index.w = 2 ∧ t'.coef2.w = 1 ∧ t'.index_row.w = 1 ∧
      t'.index_col.w = 1 ∧
      (∀ j, j ≠ 0 →
        t'.value[j]? = [(1 : ℚ), 2][j]? ∧
        t'.coef1.rows[j]? = ([[(3 : ℚ)], [4]][j]?).map
          (fun r => r ++ List.replicate 1 0) ∧
        t'.index.rows[j]? = ([[(0 : ℕ)], [1]][j]?).map
          (fun r => r ++ List.replicate 1 0) ∧
        t'.coef2.rows[j]? = ([[(5 : ℚ)], [6]][j]?).map
          (fun r => r ++ List.replicate 0 0) ∧
        t'.index_row.rows[j]? = ([[(0 : ℕ)], [0]][j]?).map
          (fun r => r ++ List.replicate 0 0) ∧
        t'.index_col.rows[j]? = ([[(0 : ℕ)], [1]][j]?).map
          (fun r => r ++ List.replicate 0 0)) :=
  C9_setitem_widening
    (⟨[1, 2], ⟨1, [[3], [4]]⟩, ⟨1, [[0], [1]]⟩, ⟨1, [[5], [6]]⟩,
      ⟨1, [[0], [0]]⟩, ⟨1, [[0], [1]]⟩⟩ : spArr)
    (⟨[9], ⟨2, [[7, 8]]⟩, ⟨2, [[2, 3]]⟩, ⟨1, [[4]]⟩, ⟨1, [[2]]⟩, ⟨1, [[2]]⟩⟩ : spArr)
    0 (by decide) (by decide) rfl rfl rfl

/-- C6 counterexample: a right-hand side whose `coef1` width (2) and
`index` width (3) disagree makes the assignment raise at the `index` write
(`np.pad` with a negative pad), but only after `value` was assigned, the
first-order storage widened and `coef1` written: the error state differs
from the pre-call state, refuting "fail fast before any mutation". -/
theorem C6_counterexample_value_mutated_before_error :
    setitem
        (⟨[10], ⟨1, [[5]]⟩, ⟨1, [[7]]⟩, ⟨1, [[0]]⟩, ⟨1, [[0]]⟩, ⟨1, [[0]]⟩⟩ : spArr) 0
        (⟨[20], ⟨2, [[1, 2]]⟩, ⟨3, [[3, 4, 5]]⟩, ⟨1, [[0]]⟩, ⟨1, [[0]]⟩,
          ⟨1, [[0]]⟩⟩ : spArr) =
      Except.error
        (⟨[20], ⟨2, [[1, 2]]⟩, ⟨2, [[7, 0]]⟩, ⟨1, [[0]]⟩, ⟨1, [[0]]⟩,
          ⟨1, [[0]]⟩⟩ : spArr) ∧
    ((⟨[20], ⟨2, [[1, 2]]⟩, ⟨2, [[7, 0]]⟩, ⟨1, [[0]]⟩, ⟨1, [[0]]⟩,
        ⟨1, [[0]]⟩⟩ : spArr).value ≠
      (⟨[10], ⟨1, [[5]]⟩, ⟨1, [[7]]⟩, ⟨1, [[0]]⟩, ⟨1, [[0]]⟩, ⟨1, [[0]]⟩⟩ : spArr).value) := by
  constructor
  · rfl
  · decide

/-- C6 (amended): only an assignment whose right-hand side cannot broadcast
into the key's scalar slot (outer length different from one) fails before
any mutation, at the initial `value` write; a coefficient/index width
disagreement in the right-hand side is not checked up front and can leave
the target partially mutated (see the counterexample). -/
theorem C6_amended_outer_shape_fail_fast (t o : spArr) (i : ℕ)
    (h : o.value.length ≠ 1) : setitem t i o = Except.error t := by
  obtain ⟨ov, oc1, oi1, oc2, or2, ol2⟩ := o
  simp only at h
  unfold setitem
  by_cases hi : i < t.value.length
  · rw [if_pos hi]
    match ov, h with
    | [], _ => rfl
    | [a], h => exact absurd rfl h
    | a :: b :: l, _ => rfl
  · rw [if_neg hi]

/-- Witness for the amended C6: an empty right-hand side fails with the
target unchanged. -/
theorem C6_amended_outer_shape_fail_fast_witness :
    setitem
        (⟨[10], ⟨1, [[5]]⟩, ⟨1, [[7]]⟩, ⟨1, [[0]]⟩, ⟨1, [[0]]⟩, ⟨1, [[0]]⟩⟩ : spArr) 0
        (⟨[], ⟨0, []⟩, ⟨0, []⟩, ⟨0, []⟩, ⟨0, []⟩, ⟨0, []⟩⟩ : spArr) =
      Except.error
        (⟨[10], ⟨1, [[5]]⟩, ⟨1, [[7]]⟩, ⟨1, [[0]]⟩, ⟨1, [[0]]⟩, ⟨1, [[0]]⟩⟩ : spArr) :=
  C6_amended_outer_shape_fail_fast _ _ 0 (by decide)

end spArr


end AGD
